import Mathlib

/-!
Shallow embedding of the tag/client membership core of `src/objects/tag.c`
(lunaria window manager).

Clients and tags are identified by natural numbers (reference identity).
`Conf` models the relevant part of `globalconf`: the map from tag identity to
tag object state, the registry array `globalconf.tags`, the focused client,
the list of known screens, and each client's screen.

Every operation returns the new configuration together with a trace of the
external side effects it performed, in program order; each effect is paired
with the configuration at the moment the effect was performed, so that claims
about what event observers see can be stated.
-/

/-- State of one `tag_t` object: the fields of the C struct used by the
tag logic (`name`, `selected`, `activated`, `clients`). -/
structure Tag where
  name : String := ""
  selected : Bool := false
  activated : Bool := false
  clients : List Nat := []
deriving DecidableEq, Repr

/-- An object a signal can be emitted on: a tag or a client. -/
inductive Obj where
  | tag (t : Nat)
  | client (c : Nat)
deriving DecidableEq, Repr

/-- Signal names used by the tag code. -/
inductive Sig where
  | tagged
  | untagged
  | propSelected
  | propActivated
  | propName
deriving DecidableEq, Repr

/-- External side effects performed by the tag code, in the order of the
calls in the C source. -/
inductive Effect where
  | banning_need_update
  | screen_update_workarea (screen : Nat)
  | ewmh_client_update_desktop (c : Nat)
  | ewmh_update_net_numbers_of_desktop
  | ewmh_update_net_desktop_names
  | emit (obj : Obj) (sig : Sig) (args : List Obj)
  | ref (t : Nat)
  | unref (t : Nat)
deriving DecidableEq, Repr

/-- The relevant part of `globalconf`. `tagOf` gives the state of the tag
object with a given identity; `tags` is the registry array (a list of tag
identities); `focusClient` is `globalconf.focus.client`; `screens` the known
screens; `screenOf` maps a client to its screen (`c->screen`). -/
structure Conf where
  tagOf : Nat → Tag
  tags : List Nat
  focusClient : Option Nat := none
  screens : List Nat := []
  screenOf : Nat → Nat := fun _ => 0

/-- Trace of effects, each paired with the configuration at the moment the
effect was performed. -/
abbrev Trace := List (Effect × Conf)

/-- Replace the state of the tag object with identity `t`. -/
def Conf.setTag (cf : Conf) (t : Nat) (tag : Tag) : Conf :=
  { cf with tagOf := Function.update cf.tagOf t tag }

/-- `is_client_tagged(c, t)`: linear scan of `t->clients` for `c`
(tag.c lines 395-400). -/
def is_client_tagged (c : Nat) (tag : Tag) : Bool :=
  tag.clients.contains c

/-- `tag_view` (tag.c lines 323-333), the body of the `selected` setter:
if `tag->selected != view`, set it, call `banning_need_update`, recompute
the workarea of every known screen, and emit `property.selected`. -/
def tag_view (cf : Conf) (t : Nat) (view : Bool) : Conf × Trace :=
  let tag := cf.tagOf t
  if tag.selected ≠ view then
    let cf' := cf.setTag t { tag with selected := view }
    (cf',
      ((Effect.banning_need_update :: cf.screens.map Effect.screen_update_workarea)
          ++ [Effect.emit (Obj.tag t) Sig.propSelected []]).map (fun e => (e, cf')))
  else (cf, [])

/-- `tag_client_emit_signal` (tag.c lines 335-348): emit the signal first on
the client with the tag as argument, then on the tag with the client as
argument. `cf` is the configuration at emission time. -/
def tag_client_emit_signal (t c : Nat) (sig : Sig) (cf : Conf) : Trace :=
  [(Effect.emit (Obj.client c) sig [Obj.tag t], cf),
   (Effect.emit (Obj.tag t) sig [Obj.client c], cf)]

/-- `tag_client` (tag.c lines 354-370): acquire a reference on the tag; if
the client is already tagged, release it and return; otherwise append the
client, sync the desktop protocol for the client, invalidate banning,
recompute the client's screen workarea, and emit the dual `tagged` signal. -/
def tag_client (cf : Conf) (t : Nat) (c : Nat) : Conf × Trace :=
  let tag := cf.tagOf t
  if is_client_tagged c tag then
    (cf, [(Effect.ref t, cf), (Effect.unref t, cf)])
  else
    let cf' := cf.setTag t { tag with clients := tag.clients ++ [c] }
    (cf',
      (Effect.ref t, cf) ::
        ([Effect.ewmh_client_update_desktop c, Effect.banning_need_update,
          Effect.screen_update_workarea (cf.screenOf c)].map (fun e => (e, cf')))
        ++ tag_client_emit_signal t c Sig.tagged cf')

/-- `untag_client` (tag.c lines 376-388): scan `t->clients` for `c`; if
found, remove it (first occurrence, remaining order preserved), invalidate
banning, sync the desktop protocol for the client, recompute the client's
screen workarea, emit the dual `untagged` signal, and release the membership
reference; otherwise do nothing. -/
def untag_client (cf : Conf) (c : Nat) (t : Nat) : Conf × Trace :=
  let tag := cf.tagOf t
  if c ∈ tag.clients then
    let cf' := cf.setTag t { tag with clients := tag.clients.erase c }
    (cf',
      ([Effect.banning_need_update, Effect.ewmh_client_update_desktop c,
        Effect.screen_update_workarea (cf.screenOf c)].map (fun e => (e, cf')))
        ++ tag_client_emit_signal t c Sig.untagged cf'
        ++ [(Effect.unref t, cf')])
  else (cf, [])

/-- The `activated` setter (tag.c lines 510-539). No-op when the value is
unchanged. On activation: append the tag to the registry (taking a
reference). On deactivation: remove the tag from the registry (first match),
force `selected` to false when it was set (emitting `property.selected` and
invalidating banning), then release the registry reference. Both branches
then sync desktop numbers and names and emit `property.activated`. -/
def lunaL_tag_set_activated (cf : Conf) (t : Nat) (activated : Bool) : Conf × Trace :=
  let tag := cf.tagOf t
  if activated = tag.activated then (cf, [])
  else
    let cf1 := cf.setTag t { tag with activated := activated }
    if activated then
      let cf2 := { cf1 with tags := cf1.tags ++ [t] }
      (cf2,
        (Effect.ref t, cf1) ::
          ([Effect.ewmh_update_net_numbers_of_desktop, Effect.ewmh_update_net_desktop_names,
            Effect.emit (Obj.tag t) Sig.propActivated []].map (fun e => (e, cf2))))
    else
      let cf2 := { cf1 with tags := cf1.tags.erase t }
      if tag.selected then
        let cf3 := cf2.setTag t { tag with activated := false, selected := false }
        (cf3,
          (Effect.emit (Obj.tag t) Sig.propSelected [], cf3) ::
            (Effect.banning_need_update, cf3) ::
            ([Effect.unref t, Effect.ewmh_update_net_numbers_of_desktop,
              Effect.ewmh_update_net_desktop_names,
              Effect.emit (Obj.tag t) Sig.propActivated []].map (fun e => (e, cf3))))
      else
        (cf2,
          [Effect.unref t, Effect.ewmh_update_net_numbers_of_desktop,
            Effect.ewmh_update_net_desktop_names,
            Effect.emit (Obj.tag t) Sig.propActivated []].map (fun e => (e, cf2)))

/-- The `activated` getter as written in the source (tag.c lines 504-508):
it pushes `tag->selected`. -/
def lunaL_tag_get_activated (cf : Conf) (t : Nat) : Bool :=
  (cf.tagOf t).selected

/-- The `selected` getter (tag.c lines 493-497). -/
def lunaL_tag_get_selected (cf : Conf) (t : Nat) : Bool :=
  (cf.tagOf t).selected

/-- `tags_get_current_or_first_selected_index` (tag.c lines 405-420): if a
focused client exists, return the index of the first registry tag that is
selected and has the focused client; otherwise (or when none matches) the
index of the first selected registry tag; otherwise 0. -/
def tags_get_current_or_first_selected_index (cf : Conf) : Nat :=
  let cur :=
    match cf.focusClient with
    | some c =>
        cf.tags.findIdx? (fun t => (cf.tagOf t).selected && is_client_tagged c (cf.tagOf t))
    | none => none
  match cur with
  | some i => i
  | none =>
      match cf.tags.findIdx? (fun t => (cf.tagOf t).selected) with
      | some i => i
      | none => 0

/-- A value taken from the replacement table passed to `tag:clients`: either
a valid client reference, or any other value (on which `luaC_checkuclass`
raises a Lua type error). -/
inductive LuaValue where
  | client (c : Nat)
  | other
deriving DecidableEq, Repr

/-- The client identities occurring in a replacement table. -/
def RClients : List LuaValue → List Nat
  | [] => []
  | LuaValue.client c :: rest => c :: RClients rest
  | LuaValue.other :: rest => RClients rest

/-- The inner `lua_next` scan of the removal pass of `luaA_tag_clients`
(tag.c lines 441-452): walk the replacement table; a non-client value raises
a type error; stop with `true` when the current member is found; `false`
when the table is exhausted. -/
def tag_clients_find (R : List LuaValue) (c : Nat) : Except Unit Bool :=
  match R with
  | [] => Except.ok false
  | LuaValue.client tc :: rest =>
      if tc = c then Except.ok true else tag_clients_find rest c
  | LuaValue.other :: _ => Except.error ()

/-- The removal pass of `luaA_tag_clients` (tag.c lines 436-457): the loop
over the live member array with index `j`; a member found in the table is
kept (`j` advances), a member absent from the table is untagged and `j`
stays (the `j--` in the source compensating for the removal); a non-client
table value aborts the pass (the Lua error propagates). Returns the new
configuration, the trace, and whether the pass aborted. -/
def luaA_tag_clients_untag_pass (cf : Conf) (t : Nat) (R : List LuaValue) (j : Nat) :
    Conf × Trace × Bool :=
  if h : j < (cf.tagOf t).clients.length then
    match tag_clients_find R ((cf.tagOf t).clients.get ⟨j, h⟩) with
    | Except.error _ => (cf, [], true)
    | Except.ok true => luaA_tag_clients_untag_pass cf t R (j + 1)
    | Except.ok false =>
        let r := untag_client cf ((cf.tagOf t).clients.get ⟨j, h⟩) t
        let r2 := luaA_tag_clients_untag_pass r.1 t R j
        (r2.1, r.2 ++ r2.2.1, r2.2.2)
  else (cf, [], false)
termination_by (cf.tagOf t).clients.length - j
decreasing_by
  · omega
  · have hm : (cf.tagOf t).clients.get ⟨j, h⟩ ∈ (cf.tagOf t).clients := List.get_mem _ _ _
    have he : ((untag_client cf ((cf.tagOf t).clients.get ⟨j, h⟩) t).1.tagOf t).clients
        = (cf.tagOf t).clients.erase ((cf.tagOf t).clients.get ⟨j, h⟩) := by
      simp [untag_client, Conf.setTag, hm, Function.update_same]
    rw [he]
    have := List.length_erase_of_mem hm
    omega

/-- The addition pass of `luaA_tag_clients` (tag.c lines 458-465): walk the
replacement table in order, calling `tag_client` on each client value; a
non-client value aborts the pass with a type error. -/
def luaA_tag_clients_tag_pass (cf : Conf) (t : Nat) : List LuaValue → Conf × Trace × Bool
  | [] => (cf, [], false)
  | LuaValue.client c :: rest =>
      let r := tag_client cf t c
      let r2 := luaA_tag_clients_tag_pass r.1 t rest
      (r2.1, r.2 ++ r2.2.1, r2.2.2)
  | LuaValue.other :: _ => (cf, [], true)

/-- `luaA_tag_clients` (tag.c lines 429-475), the `clients` method: with no
argument, just build the result table from the tag's member list; with a
replacement table, run the removal pass then the addition pass (a type
error in either aborts the call, keeping the mutations already made), then
build the result table from the final member list. Returns the new
configuration, the trace, and `some` result list (or `none` on a type
error). -/
def luaA_tag_clients (cf : Conf) (t : Nat) (arg : Option (List LuaValue)) :
    Conf × Trace × Option (List Nat) :=
  match arg with
  | none => (cf, [], some (cf.tagOf t).clients)
  | some R =>
      let r1 := luaA_tag_clients_untag_pass cf t R 0
      if r1.2.2 then (r1.1, r1.2.1, none)
      else
        let r2 := luaA_tag_clients_tag_pass r1.1 t R
        if r2.2.2 then (r2.1, r1.2.1 ++ r2.2.1, none)
        else (r2.1, r1.2.1 ++ r2.2.1, some (r2.1.tagOf t).clients)

/-- One public operation of the tag subsystem, for stating invariants over
arbitrary operation sequences. -/
inductive TagOp where
  | view (t : Nat) (v : Bool)
  | set_activated (t : Nat) (v : Bool)
  | tag (t : Nat) (c : Nat)
  | untag (c : Nat) (t : Nat)
  | clients (t : Nat) (arg : Option (List LuaValue))
deriving DecidableEq, Repr

/-- Apply one public operation, keeping only the configuration. -/
def applyOp (cf : Conf) : TagOp → Conf
  | TagOp.view t v => (tag_view cf t v).1
  | TagOp.set_activated t v => (lunaL_tag_set_activated cf t v).1
  | TagOp.tag t c => (tag_client cf t c).1
  | TagOp.untag c t => (untag_client cf c t).1
  | TagOp.clients t arg => (luaA_tag_clients cf t arg).1

/-- Apply a sequence of public operations. -/
def applyOps (cf : Conf) (ops : List TagOp) : Conf :=
  ops.foldl applyOp cf

/-- One step of the addition pass, as it acts on a member list: append the
client unless already present. -/
def addMember (acc : List Nat) (c : Nat) : List Nat :=
  if c ∈ acc then acc else acc ++ [c]

/-- Modelled from the spec wording of step 4 of `set_clients`: the members
of the requested set that are not already present, in the order they are
encountered, each appended once. Compared below against what the code
computes. -/
def newMembers (present : List Nat) : List Nat → List Nat
  | [] => []
  | c :: rest =>
      if c ∈ present then newMembers present rest
      else c :: newMembers (present ++ [c]) rest

/-- Invariant I1 stated for every tag object: no duplicate clients. -/
def NodupAll (cf : Conf) : Prop := ∀ u, ((cf.tagOf u).clients).Nodup

/-- Invariant I3 stated for every tag object: a deactivated tag is
deselected. -/
def InvI3 (cf : Conf) : Prop :=
  ∀ u, (cf.tagOf u).activated = false → (cf.tagOf u).selected = false

/-- Whether an effect is a signal emission. -/
def Effect.isEmit : Effect → Bool
  | Effect.emit _ _ _ => true
  | _ => false

/-- Whether an effect is a workarea recomputation. -/
def Effect.isWorkarea : Effect → Bool
  | Effect.screen_update_workarea _ => true
  | _ => false

/-- Whether an effect is a per-client desktop-protocol sync. -/
def Effect.isDesktopSync : Effect → Bool
  | Effect.ewmh_client_update_desktop _ => true
  | _ => false

/-- A configuration holding only default (detached, deselected, empty) tag
objects and an empty registry. -/
def conf0 : Conf := { tagOf := fun _ => {}, tags := [] }

/-- A configuration whose every tag object is activated and selected, with
tag 0 registered. -/
def confDeact : Conf :=
  { tagOf := fun _ => { selected := true, activated := true }, tags := [0] }

/-- A configuration whose every tag object holds client 1. -/
def confTagged : Conf :=
  { tagOf := fun _ => { clients := [1] }, tags := [] }

/-- A configuration whose every tag object is activated but deselected, with
tag 0 registered. -/
def confBug : Conf :=
  { tagOf := fun _ => { activated := true }, tags := [0] }

/-- A configuration with focused client 5, registry `[3, 4]`, and tag 4
selected with client 5 as a member. -/
def confFocus : Conf :=
  { tagOf := fun u => if u = 4 then { selected := true, clients := [5] } else {},
    tags := [3, 4],
    focusClient := some 5 }

/-! Helper lemmas about the state transitions of each operation. -/

theorem Conf_setTag_tagOf_self (cf : Conf) (t : Nat) (tag : Tag) :
    (cf.setTag t tag).tagOf t = tag := by
  simp [Conf.setTag]

theorem Conf_setTag_tagOf_ne (cf : Conf) (t u : Nat) (tag : Tag) (h : u ≠ t) :
    (cf.setTag t tag).tagOf u = cf.tagOf u := by
  simp [Conf.setTag, Function.update_noteq h]

theorem tag_view_clients (cf : Conf) (t : Nat) (view : Bool) (u : Nat) :
    ((tag_view cf t view).1.tagOf u).clients = (cf.tagOf u).clients := by
  rcases eq_or_ne u t with rfl | hne
  · simp only [tag_view]; split
    · simp [Conf.setTag]
    · rfl
  · simp only [tag_view]; split
    · simp [Conf.setTag, Function.update_noteq hne]
    · rfl

theorem tag_view_activated (cf : Conf) (t : Nat) (view : Bool) (u : Nat) :
    ((tag_view cf t view).1.tagOf u).activated = (cf.tagOf u).activated := by
  rcases eq_or_ne u t with rfl | hne
  · simp only [tag_view]; split
    · simp [Conf.setTag]
    · rfl
  · simp only [tag_view]; split
    · simp [Conf.setTag, Function.update_noteq hne]
    · rfl

theorem tag_view_tags (cf : Conf) (t : Nat) (view : Bool) :
    (tag_view cf t view).1.tags = cf.tags := by
  simp only [tag_view]; split
  · simp [Conf.setTag]
  · rfl

theorem tag_client_selected (cf : Conf) (t c : Nat) (u : Nat) :
    ((tag_client cf t c).1.tagOf u).selected = (cf.tagOf u).selected := by
  rcases eq_or_ne u t with rfl | hne
  · simp only [tag_client]; split
    · rfl
    · simp [Conf.setTag]
  · simp only [tag_client]; split
    · rfl
    · simp [Conf.setTag, Function.update_noteq hne]

theorem tag_client_activated (cf : Conf) (t c : Nat) (u : Nat) :
    ((tag_client cf t c).1.tagOf u).activated = (cf.tagOf u).activated := by
  rcases eq_or_ne u t with rfl | hne
  · simp only [tag_client]; split
    · rfl
    · simp [Conf.setTag]
  · simp only [tag_client]; split
    · rfl
    · simp [Conf.setTag, Function.update_noteq hne]

theorem tag_client_tags (cf : Conf) (t c : Nat) :
    (tag_client cf t c).1.tags = cf.tags := by
  simp only [tag_client]; split
  · rfl
  · simp [Conf.setTag]

theorem tag_client_clients_ne (cf : Conf) (t c : Nat) (u : Nat) (hne : u ≠ t) :
    ((tag_client cf t c).1.tagOf u).clients = (cf.tagOf u).clients := by
  simp only [tag_client]; split
  · rfl
  · simp [Conf.setTag, Function.update_noteq hne]

theorem tag_client_clients_self (cf : Conf) (t c : Nat) :
    ((tag_client cf t c).1.tagOf t).clients =
      if c ∈ (cf.tagOf t).clients then (cf.tagOf t).clients
      else (cf.tagOf t).clients ++ [c] := by
  simp only [tag_client, is_client_tagged]
  rcases Decidable.em (c ∈ (cf.tagOf t).clients) with hm | hm
  · simp [hm]
  · simp [hm, Conf.setTag]

theorem untag_client_selected (cf : Conf) (c t : Nat) (u : Nat) :
    ((untag_client cf c t).1.tagOf u).selected = (cf.tagOf u).selected := by
  rcases eq_or_ne u t with rfl | hne
  · simp only [untag_client]; split
    · simp [Conf.setTag]
    · rfl
  · simp only [untag_client]; split
    · simp [Conf.setTag, Function.update_noteq hne]
    · rfl

theorem untag_client_activated (cf : Conf) (c t : Nat) (u : Nat) :
    ((untag_client cf c t).1.tagOf u).activated = (cf.tagOf u).activated := by
  rcases eq_or_ne u t with rfl | hne
  · simp only [untag_client]; split
    · simp [Conf.setTag]
    · rfl
  · simp only [untag_client]; split
    · simp [Conf.setTag, Function.update_noteq hne]
    · rfl

theorem untag_client_tags (cf : Conf) (c t : Nat) :
    (untag_client cf c t).1.tags = cf.tags := by
  simp only [untag_client]; split
  · simp [Conf.setTag]
  · rfl

theorem untag_client_clients_ne (cf : Conf) (c t : Nat) (u : Nat) (hne : u ≠ t) :
    ((untag_client cf c t).1.tagOf u).clients = (cf.tagOf u).clients := by
  simp only [untag_client]; split
  · simp [Conf.setTag, Function.update_noteq hne]
  · rfl

theorem untag_client_clients_self (cf : Conf) (c t : Nat) :
    ((untag_client cf c t).1.tagOf t).clients =
      if c ∈ (cf.tagOf t).clients then (cf.tagOf t).clients.erase c
      else (cf.tagOf t).clients := by
  simp only [untag_client]
  rcases Decidable.em (c ∈ (cf.tagOf t).clients) with hm | hm
  · simp [hm, Conf.setTag]
  · simp [hm]

/-- After `untag_client` of a present client, the tag's list is the original
list with the first occurrence of the client erased. -/
theorem untag_client_clients_of_mem (cf : Conf) (c t : Nat)
    (h : c ∈ (cf.tagOf t).clients) :
    ((untag_client cf c t).1.tagOf t).clients = (cf.tagOf t).clients.erase c := by
  simp [untag_client, Conf.setTag, h, Function.update_same]
theorem lunaL_tag_set_activated_clients (cf : Conf) (t : Nat) (v : Bool) (u : Nat) :
    ((lunaL_tag_set_activated cf t v).1.tagOf u).clients = (cf.tagOf u).clients := by
  rcases eq_or_ne u t with rfl | hne
  · simp only [lunaL_tag_set_activated]
    split
    · rfl
    · split
      · simp [Conf.setTag]
      · split
        · simp [Conf.setTag]
        · simp [Conf.setTag]
  · simp only [lunaL_tag_set_activated]
    split
    · rfl
    · split
      · simp [Conf.setTag, Function.update_noteq hne]
      · split
        · simp [Conf.setTag, Function.update_noteq hne]
        · simp [Conf.setTag, Function.update_noteq hne]

theorem lunaL_tag_set_activated_I3 (cf : Conf) (t : Nat) (v : Bool) (h : InvI3 cf) :
    InvI3 (lunaL_tag_set_activated cf t v).1 := by
  intro u
  rcases eq_or_ne u t with rfl | hne
  · simp only [lunaL_tag_set_activated]
    split
    · exact h u
    · split
      · next hv => subst hv; simp [Conf.setTag]
      · next hv =>
        split
        · simp [Conf.setTag]
        · next hsel =>
          simp only [Bool.not_eq_true] at hv hsel
          subst hv
          simp [Conf.setTag, hsel]
  · simp only [lunaL_tag_set_activated]
    split
    · exact h u
    · split
      · simp only [Conf.setTag]
        simp [Function.update_noteq hne]
        exact h u
      · split
        · simp only [Conf.setTag]
          simp [Function.update_noteq hne]
          exact h u
        · simp only [Conf.setTag]
          simp [Function.update_noteq hne]
          exact h u

theorem tag_client_I3 (cf : Conf) (t c : Nat) (h : InvI3 cf) :
    InvI3 (tag_client cf t c).1 := by
  intro u ha
  rw [tag_client_activated] at ha
  rw [tag_client_selected]
  exact h u ha

theorem untag_client_I3 (cf : Conf) (c t : Nat) (h : InvI3 cf) :
    InvI3 (untag_client cf c t).1 := by
  intro u ha
  rw [untag_client_activated] at ha
  rw [untag_client_selected]
  exact h u ha

theorem tag_view_I3_guarded (cf : Conf) (t : Nat) (v : Bool)
    (h : InvI3 cf) (hg : (cf.tagOf t).activated = true ∨ v = false) :
    InvI3 (tag_view cf t v).1 := by
  intro u ha
  rw [tag_view_activated] at ha
  rcases eq_or_ne u t with rfl | hne
  · simp only [tag_view]
    split
    · rcases hg with hg | hg
      · rw [ha] at hg; cases hg
      · subst hg; simp [Conf.setTag]
    · exact h u ha
  · simp only [tag_view]
    split
    · simp [Conf.setTag, Function.update_noteq hne]
      exact h u ha
    · exact h u ha

theorem luaA_tag_clients_untag_pass_pres (P : Conf → Prop)
    (hstep : ∀ cf c t, P cf → P (untag_client cf c t).1) :
    ∀ (cf : Conf) (t : Nat) (R : List LuaValue) (j : Nat),
      P cf → P (luaA_tag_clients_untag_pass cf t R j).1 := by
  intro cf t R j
  induction cf, t, R, j using luaA_tag_clients_untag_pass.induct with
  | case1 cf t R j h a herr =>
      intro hP
      rw [luaA_tag_clients_untag_pass, dif_pos h, herr]
      exact hP
  | case2 cf t R j h hfind ih =>
      intro hP
      rw [luaA_tag_clients_untag_pass, dif_pos h, hfind]
      exact ih hP
  | case3 cf t R j h hfind r ih =>
      intro hP
      rw [luaA_tag_clients_untag_pass, dif_pos h, hfind]
      exact ih (hstep _ _ _ hP)
  | case4 cf t R j h =>
      intro hP
      rw [luaA_tag_clients_untag_pass, dif_neg h]
      exact hP

theorem luaA_tag_clients_tag_pass_pres (P : Conf → Prop)
    (hstep : ∀ cf t c, P cf → P (tag_client cf t c).1) :
    ∀ (R : List LuaValue) (cf : Conf) (t : Nat),
      P cf → P (luaA_tag_clients_tag_pass cf t R).1 := by
  intro R
  induction R with
  | nil => intro cf t h; simpa [luaA_tag_clients_tag_pass] using h
  | cons v rest ih =>
      intro cf t h
      cases v with
      | client c =>
          simp only [luaA_tag_clients_tag_pass]
          exact ih _ _ (hstep _ _ _ h)
      | other => simpa [luaA_tag_clients_tag_pass] using h

theorem luaA_tag_clients_pres (P : Conf → Prop)
    (hu : ∀ cf c t, P cf → P (untag_client cf c t).1)
    (ht : ∀ cf t c, P cf → P (tag_client cf t c).1)
    (cf : Conf) (t : Nat) (arg : Option (List LuaValue)) (h : P cf) :
    P (luaA_tag_clients cf t arg).1 := by
  cases arg with
  | none => simpa [luaA_tag_clients] using h
  | some R =>
      simp only [luaA_tag_clients]
      split
      · exact luaA_tag_clients_untag_pass_pres P hu cf t R 0 h
      · split
        · exact luaA_tag_clients_tag_pass_pres P ht R _ t
            (luaA_tag_clients_untag_pass_pres P hu cf t R 0 h)
        · exact luaA_tag_clients_tag_pass_pres P ht R _ t
            (luaA_tag_clients_untag_pass_pres P hu cf t R 0 h)

theorem tag_client_NodupAll (cf : Conf) (t c : Nat) (h : NodupAll cf) :
    NodupAll (tag_client cf t c).1 := by
  intro u
  rcases eq_or_ne u t with rfl | hne
  · rw [tag_client_clients_self]
    split
    · exact h u
    · next hm => simp [List.nodup_append, h u, hm]
  · rw [tag_client_clients_ne cf t c u hne]
    exact h u

theorem untag_client_NodupAll (cf : Conf) (c t : Nat) (h : NodupAll cf) :
    NodupAll (untag_client cf c t).1 := by
  intro u
  rcases eq_or_ne u t with rfl | hne
  · rw [untag_client_clients_self]
    split
    · exact (h u).erase c
    · exact h u
  · rw [untag_client_clients_ne cf c t u hne]
    exact h u

theorem tag_view_NodupAll (cf : Conf) (t : Nat) (v : Bool) (h : NodupAll cf) :
    NodupAll (tag_view cf t v).1 := by
  intro u
  rw [tag_view_clients]
  exact h u

theorem lunaL_tag_set_activated_NodupAll (cf : Conf) (t : Nat) (v : Bool) (h : NodupAll cf) :
    NodupAll (lunaL_tag_set_activated cf t v).1 := by
  intro u
  rw [lunaL_tag_set_activated_clients]
  exact h u

theorem applyOp_NodupAll (cf : Conf) (op : TagOp) (h : NodupAll cf) :
    NodupAll (applyOp cf op) := by
  cases op with
  | view t v => exact tag_view_NodupAll cf t v h
  | set_activated t v => exact lunaL_tag_set_activated_NodupAll cf t v h
  | tag t c => exact tag_client_NodupAll cf t c h
  | untag c t => exact untag_client_NodupAll cf c t h
  | clients t arg =>
      exact luaA_tag_clients_pres NodupAll
        (fun cf c t => untag_client_NodupAll cf c t)
        (fun cf t c => tag_client_NodupAll cf t c) cf t arg h

theorem conf0_I3 : InvI3 conf0 := fun _ _ => rfl

theorem foldl_addMember_eq (L : List Nat) :
    ∀ present : List Nat, L.foldl addMember present = present ++ newMembers present L := by
  induction L with
  | nil => intro present; simp [newMembers]
  | cons c rest ih =>
      intro present
      simp only [List.foldl_cons, newMembers, addMember]
      split
      · rw [ih]
      · rw [ih]; simp

theorem mem_foldl_addMember (L : List Nat) :
    ∀ (acc : List Nat) (x : Nat), x ∈ L.foldl addMember acc ↔ x ∈ acc ∨ x ∈ L := by
  induction L with
  | nil => intro acc x; simp
  | cons c rest ih =>
      intro acc x
      simp only [List.foldl_cons, addMember]
      split
      · next hm =>
          rw [ih]
          simp only [List.mem_cons]
          constructor
          · rintro (h | h)
            · exact Or.inl h
            · exact Or.inr (Or.inr h)
          · rintro (h | rfl | h)
            · exact Or.inl h
            · exact Or.inl hm
            · exact Or.inr h
      · rw [ih]
        simp only [List.mem_append, List.mem_singleton, List.mem_cons]
        tauto

theorem mem_newMembers (L : List Nat) :
    ∀ (present : List Nat) (x : Nat), x ∈ newMembers present L → x ∈ L ∧ x ∉ present := by
  induction L with
  | nil => intro present x h; simp [newMembers] at h
  | cons c rest ih =>
      intro present x
      simp only [newMembers]
      split
      · next hm =>
          intro h
          rcases ih present x h with ⟨h1, h2⟩
          exact ⟨List.mem_cons_of_mem c h1, h2⟩
      · next hm =>
          intro h
          rcases List.mem_cons.mp h with rfl | h'
          · exact ⟨List.mem_cons_self _ _, hm⟩
          · rcases ih (present ++ [c]) x h' with ⟨h1, h2⟩
            refine ⟨List.mem_cons_of_mem c h1, fun hp => h2 ?_⟩
            exact List.mem_append_left _ hp

theorem erase_getElem_of_nodup (l : List Nat) (hn : l.Nodup) (j : Nat) (h : j < l.length) :
    l.erase (l.get ⟨j, h⟩) = l.take j ++ l.drop (j + 1) := by
  induction l generalizing j with
  | nil => simp at h
  | cons a tl ih =>
      cases j with
      | zero => simp
      | succ j =>
          have hj : j < tl.length := by simpa using h
          have hne : a ≠ tl.get ⟨j, hj⟩ := by
            intro he
            exact (List.nodup_cons.mp hn).1 (he ▸ List.get_mem tl j hj)
          have : (a :: tl).get ⟨j + 1, h⟩ = tl.get ⟨j, hj⟩ := rfl
          rw [this]
          rw [List.erase_cons_tail]
          · rw [ih (List.nodup_cons.mp hn).2 j hj]
            simp
          · simpa using hne

theorem tag_clients_find_of_valid (R : List LuaValue) (hv : LuaValue.other ∉ R) (c : Nat) :
    tag_clients_find R c = Except.ok (decide (c ∈ RClients R)) := by
  induction R with
  | nil => simp [tag_clients_find, RClients]
  | cons v rest ih =>
      cases v with
      | client tc =>
          have hv' : LuaValue.other ∉ rest := fun h => hv (List.mem_cons_of_mem _ h)
          simp only [tag_clients_find, RClients]
          rcases eq_or_ne tc c with rfl | hne
          · simp
          · rw [if_neg hne, ih hv']
            congr 1
            simp [List.mem_cons, hne.symm]
      | other => exact absurd (List.mem_cons_self _ _) hv

theorem luaA_tag_clients_untag_pass_spec :
    ∀ (cf : Conf) (t : Nat) (R : List LuaValue) (j : Nat),
      LuaValue.other ∉ R →
      ((cf.tagOf t).clients).Nodup →
      ((luaA_tag_clients_untag_pass cf t R j).1.tagOf t).clients =
          (cf.tagOf t).clients.take j
            ++ ((cf.tagOf t).clients.drop j).filter (fun c => decide (c ∈ RClients R))
        ∧ (luaA_tag_clients_untag_pass cf t R j).2.2 = false := by
  intro cf t R j
  induction cf, t, R, j using luaA_tag_clients_untag_pass.induct with
  | case1 cf t R j h a herr =>
      intro hv hn
      rw [tag_clients_find_of_valid R hv] at herr
      cases herr
  | case2 cf t R j h hfind ih =>
      intro hv hn
      have hfind' := hfind
      rw [tag_clients_find_of_valid R hv] at hfind'
      have hc : (cf.tagOf t).clients.get ⟨j, h⟩ ∈ RClients R := by
        have := Except.ok.inj hfind'
        exact of_decide_eq_true this
      obtain ⟨ih1, ih2⟩ := ih hv hn
      have htake : (cf.tagOf t).clients.take (j + 1) =
          (cf.tagOf t).clients.take j ++ [(cf.tagOf t).clients.get ⟨j, h⟩] := by
        rw [List.take_succ, List.getElem?_eq_getElem h]
        rfl
      have hdrop : (cf.tagOf t).clients.drop j =
          (cf.tagOf t).clients.get ⟨j, h⟩ :: (cf.tagOf t).clients.drop (j + 1) := by
        rw [List.drop_eq_getElem_cons h]
        rfl
      rw [luaA_tag_clients_untag_pass, dif_pos h, hfind]
      refine ⟨?_, ih2⟩
      rw [ih1, htake, hdrop, List.filter_cons_of_pos (by simpa using hc)]
      simp only [List.append_assoc, List.singleton_append]
  | case3 cf t R j h hfind r ih =>
      intro hv hn
      have hfind' := hfind
      rw [tag_clients_find_of_valid R hv] at hfind'
      have hc : (cf.tagOf t).clients.get ⟨j, h⟩ ∉ RClients R := by
        have := Except.ok.inj hfind'
        exact of_decide_eq_false this
      have hm : (cf.tagOf t).clients.get ⟨j, h⟩ ∈ (cf.tagOf t).clients :=
        List.get_mem _ _ _
      have hre : ((r.1).tagOf t).clients =
          (cf.tagOf t).clients.take j ++ (cf.tagOf t).clients.drop (j + 1) := by
        show ((untag_client cf ((cf.tagOf t).clients.get ⟨j, h⟩) t).1.tagOf t).clients = _
        rw [untag_client_clients_of_mem cf _ t hm, erase_getElem_of_nodup _ hn j h]
      have hn' : (((r.1).tagOf t).clients).Nodup := by
        show (((untag_client cf ((cf.tagOf t).clients.get ⟨j, h⟩) t).1).tagOf t).clients.Nodup
        rw [untag_client_clients_of_mem cf _ t hm]
        exact hn.erase _
      obtain ⟨ih1, ih2⟩ := ih hv hn'
      have hA : (((cf.tagOf t).clients.take j)).length = j := by
        rw [List.length_take]; omega
      have h1 : (((cf.tagOf t).clients.take j ++ (cf.tagOf t).clients.drop (j + 1))).take j
          = (cf.tagOf t).clients.take j := by
        rw [List.take_append_of_le_length (le_of_eq hA.symm),
          List.take_of_length_le (le_of_eq hA)]
      have h2 : (((cf.tagOf t).clients.take j ++ (cf.tagOf t).clients.drop (j + 1))).drop j
          = (cf.tagOf t).clients.drop (j + 1) := by
        rw [List.drop_append_of_le_length (le_of_eq hA.symm),
          List.drop_eq_nil_of_le (le_of_eq hA), List.nil_append]
      have hdrop : (cf.tagOf t).clients.drop j =
          (cf.tagOf t).clients.get ⟨j, h⟩ :: (cf.tagOf t).clients.drop (j + 1) := by
        rw [List.drop_eq_getElem_cons h]
        rfl
      rw [luaA_tag_clients_untag_pass, dif_pos h, hfind]
      refine ⟨?_, ih2⟩
      show ((luaA_tag_clients_untag_pass r.1 t R j).1.tagOf t).clients = _
      rw [ih1, hre, h1, h2, hdrop, List.filter_cons_of_neg (by simpa using hc)]
  | case4 cf t R j h =>
      intro hv hn
      rw [luaA_tag_clients_untag_pass, dif_neg h]
      have hlen : (cf.tagOf t).clients.length ≤ j := Nat.le_of_not_lt h
      constructor
      · rw [List.take_of_length_le hlen, List.drop_eq_nil_of_le hlen]
        simp
      · rfl

theorem luaA_tag_clients_tag_pass_spec :
    ∀ (R : List LuaValue) (cf : Conf) (t : Nat), LuaValue.other ∉ R →
      ((luaA_tag_clients_tag_pass cf t R).1.tagOf t).clients
          = (RClients R).foldl addMember (cf.tagOf t).clients
        ∧ (luaA_tag_clients_tag_pass cf t R).2.2 = false := by
  intro R
  induction R with
  | nil => intro cf t _; simp [luaA_tag_clients_tag_pass, RClients]
  | cons v rest ih =>
      intro cf t hv
      cases v with
      | client c =>
          have hv' : LuaValue.other ∉ rest := fun h => hv (List.mem_cons_of_mem _ h)
          obtain ⟨ih1, ih2⟩ := ih (tag_client cf t c).1 t hv'
          simp only [luaA_tag_clients_tag_pass, RClients, List.foldl_cons]
          refine ⟨?_, ih2⟩
          rw [ih1, tag_client_clients_self]
          rfl
      | other => exact absurd (List.mem_cons_self _ _) hv

theorem set_clients_result (cf : Conf) (t : Nat) (R : List LuaValue)
    (hv : LuaValue.other ∉ R) (hn : ((cf.tagOf t).clients).Nodup) :
    ((luaA_tag_clients cf t (some R)).1.tagOf t).clients
        = (RClients R).foldl addMember
            (((cf.tagOf t).clients).filter (fun x => decide (x ∈ RClients R)))
      ∧ (luaA_tag_clients cf t (some R)).2.2
        = some ((luaA_tag_clients cf t (some R)).1.tagOf t).clients := by
  obtain ⟨h1c, h1e⟩ := luaA_tag_clients_untag_pass_spec cf t R 0 hv hn
  rw [List.take_zero, List.drop_zero, List.nil_append] at h1c
  obtain ⟨h2c, h2e⟩ :=
    luaA_tag_clients_tag_pass_spec R (luaA_tag_clients_untag_pass cf t R 0).1 t hv
  simp only [luaA_tag_clients, h1e, Bool.false_eq_true, if_false, h2e]
  rw [h2c, h1c]
  exact ⟨rfl, trivial⟩

/-- C10: calling the `clients` method with no replacement table returns the
member list in internal storage order and performs no mutation, no event
emission, and no external call. -/
theorem clients_query_pure (cf : Conf) (t : Nat) :
    luaA_tag_clients cf t none = (cf, [], some (cf.tagOf t).clients) := rfl

/-- C3: the public `activated` getter does not return the `activated` flag;
as written it pushes `tag->selected`. On a tag that is activated (and, per
I2, in the registry) but deselected, it returns `false`. -/
theorem activated_getter_returns_selected :
    (confBug.tagOf 0).activated = true
    ∧ (0 : Nat) ∈ confBug.tags
    ∧ (confBug.tagOf 0).selected = false
    ∧ lunaL_tag_get_activated confBug 0 = false
    ∧ lunaL_tag_get_activated confBug 0 ≠ (confBug.tagOf 0).activated := by
  refine ⟨rfl, ?_, rfl, rfl, ?_⟩
  · simp [confBug]
  · simp [lunaL_tag_get_activated, confBug]

/-- C2 (counterexample): selecting a deactivated tag through the `selected`
setter leaves `activated = false` with `selected = true`, so invariant I3
does not hold after every public operation. -/
theorem select_deactivated_breaks_I3 :
    InvI3 conf0 ∧ ¬ InvI3 (tag_view conf0 0 true).1 := by
  refine ⟨fun _ _ => rfl, fun hI => ?_⟩
  have h := hI 0
  simp [tag_view, conf0, Conf.setTag, InvI3] at h

/-- C2 (amended): invariant I3 is preserved by the `activated` setter
(activation and deactivation), by `tag_client`, `untag_client` and
`set_clients`; the `selected` setter preserves it only when the tag is
activated or the value written is `false`. -/
theorem tag_ops_preserve_I3 (cf : Conf) (h : InvI3 cf) :
    (∀ t v, InvI3 (lunaL_tag_set_activated cf t v).1)
    ∧ (∀ t c, InvI3 (tag_client cf t c).1)
    ∧ (∀ c t, InvI3 (untag_client cf c t).1)
    ∧ (∀ t arg, InvI3 (luaA_tag_clients cf t arg).1)
    ∧ (∀ t v, (cf.tagOf t).activated = true ∨ v = false →
        InvI3 (tag_view cf t v).1) := by
  refine ⟨fun t v => lunaL_tag_set_activated_I3 cf t v h,
    fun t c => tag_client_I3 cf t c h,
    fun c t => untag_client_I3 cf c t h,
    fun t arg => luaA_tag_clients_pres InvI3
      (fun cf c t => untag_client_I3 cf c t)
      (fun cf t c => tag_client_I3 cf t c) cf t arg h,
    fun t v hg => tag_view_I3_guarded cf t v h hg⟩

theorem tag_ops_preserve_I3_witness :
    InvI3 (lunaL_tag_set_activated conf0 0 true).1
    ∧ InvI3 (tag_client conf0 0 1).1
    ∧ InvI3 (untag_client conf0 1 0).1
    ∧ InvI3 (luaA_tag_clients conf0 0 (some [LuaValue.client 1])).1
    ∧ InvI3 (tag_view conf0 0 false).1 := by
  obtain ⟨h1, h2, h3, h4, h5⟩ := tag_ops_preserve_I3 conf0 (fun _ _ => rfl)
  exact ⟨h1 0 true, h2 0 1, h3 1 0, h4 0 (some [LuaValue.client 1]),
    h5 0 false (Or.inr rfl)⟩

/-- C6: along any sequence of public operations from a configuration whose
client lists have no duplicates, every tag's client list still has no
duplicates (invariant I1); in particular repeated `tag_client` calls leave
at most one occurrence of a client. -/
theorem clients_nodup_invariant (cf : Conf) (h : NodupAll cf)
    (ops : List TagOp) (t : Nat) :
    (((applyOps cf ops).tagOf t).clients).Nodup := by
  suffices hall : NodupAll (applyOps cf ops) from hall t
  induction ops generalizing cf with
  | nil => exact h
  | cons op rest ih => exact ih (applyOp cf op) (applyOp_NodupAll cf op h)

theorem clients_nodup_invariant_witness :
    (((applyOps conf0 [TagOp.tag 0 5, TagOp.tag 0 5]).tagOf 0).clients).Nodup :=
  clients_nodup_invariant conf0 (fun _ => List.nodup_nil) [TagOp.tag 0 5, TagOp.tag 0 5] 0

/-- C1: after `set_clients(t, R)` with only valid client references in `R`,
the tag's member list equals `R` as a set; members retained from the old
list keep their relative order (filtering the result to old members gives
exactly the old members that occur in `R`, in their old order), and the
result is the retained members followed by the newly added members in the
order they are encountered in `R`. -/
theorem set_clients_reconciliation (cf : Conf) (t : Nat) (R : List LuaValue)
    (hv : LuaValue.other ∉ R) (hn : ((cf.tagOf t).clients).Nodup) :
    (∀ x, x ∈ ((luaA_tag_clients cf t (some R)).1.tagOf t).clients ↔ x ∈ RClients R)
    ∧ (((luaA_tag_clients cf t (some R)).1.tagOf t).clients).filter
          (fun x => decide (x ∈ (cf.tagOf t).clients))
        = ((cf.tagOf t).clients).filter (fun x => decide (x ∈ RClients R))
    ∧ ((luaA_tag_clients cf t (some R)).1.tagOf t).clients
        = ((cf.tagOf t).clients).filter (fun x => decide (x ∈ RClients R))
          ++ newMembers
              (((cf.tagOf t).clients).filter (fun x => decide (x ∈ RClients R)))
              (RClients R)
    ∧ (luaA_tag_clients cf t (some R)).2.2
        = some ((luaA_tag_clients cf t (some R)).1.tagOf t).clients := by
  obtain ⟨hfin, hret⟩ := set_clients_result cf t R hv hn
  have hfin2 : ((luaA_tag_clients cf t (some R)).1.tagOf t).clients
      = (((cf.tagOf t).clients).filter (fun x => decide (x ∈ RClients R)))
        ++ newMembers
            (((cf.tagOf t).clients).filter (fun x => decide (x ∈ RClients R)))
            (RClients R) := by
    rw [hfin, foldl_addMember_eq]
  refine ⟨?_, ?_, hfin2, hret⟩
  · intro x
    rw [hfin, mem_foldl_addMember]
    constructor
    · rintro (hx | hx)
      · exact of_decide_eq_true (List.mem_filter.mp hx).2
      · exact hx
    · exact Or.inr
  · rw [hfin2, List.filter_append]
    have hkeep : ((((cf.tagOf t).clients).filter (fun x => decide (x ∈ RClients R))).filter
          (fun x => decide (x ∈ (cf.tagOf t).clients)))
        = ((cf.tagOf t).clients).filter (fun x => decide (x ∈ RClients R)) := by
      apply List.filter_eq_self.mpr
      intro a ha
      exact decide_eq_true (List.mem_filter.mp ha).1
    have hnew : ((newMembers
            (((cf.tagOf t).clients).filter (fun x => decide (x ∈ RClients R)))
            (RClients R)).filter (fun x => decide (x ∈ (cf.tagOf t).clients))) = [] := by
      apply List.filter_eq_nil_iff.mpr
      intro a ha
      obtain ⟨haR, hak⟩ := mem_newMembers _ _ _ ha
      simp only [decide_eq_true_eq]
      intro hao
      exact hak (List.mem_filter.mpr ⟨hao, decide_eq_true haR⟩)
    rw [hkeep, hnew, List.append_nil]

theorem set_clients_reconciliation_witness :
    (2 ∈ ((luaA_tag_clients confTagged 0
          (some [LuaValue.client 2, LuaValue.client 1])).1.tagOf 0).clients
        ↔ 2 ∈ RClients [LuaValue.client 2, LuaValue.client 1])
    ∧ (luaA_tag_clients confTagged 0 (some [LuaValue.client 2, LuaValue.client 1])).2.2
        = some ((luaA_tag_clients confTagged 0
            (some [LuaValue.client 2, LuaValue.client 1])).1.tagOf 0).clients := by
  have h := set_clients_reconciliation confTagged 0
    [LuaValue.client 2, LuaValue.client 1] (by decide) (by decide)
  exact ⟨h.1 2, h.2.2.2⟩

theorem lunaL_tag_set_activated_self (cf : Conf) (t : Nat) (v : Bool) :
    ((lunaL_tag_set_activated cf t v).1.tagOf t).activated = v := by
  simp only [lunaL_tag_set_activated]
  split
  · next h => exact h.symm
  · split
    · next hv => simp [Conf.setTag]
    · next hv =>
        simp only [Bool.not_eq_true] at hv
        subst hv
        split
        · simp [Conf.setTag]
        · simp [Conf.setTag]

theorem tag_client_mem_self (cf : Conf) (t c : Nat) :
    c ∈ ((tag_client cf t c).1.tagOf t).clients := by
  rw [tag_client_clients_self]
  split
  · next hm => exact hm
  · exact List.mem_append_right _ (List.mem_singleton_self c)

/-- C4: deactivating an activated, selected tag deselects it, deactivates
it, removes it from the registry (its registry entry is unique by I2), and
the `property.selected` emission comes before both the release of the
registry reference and the `property.activated` emission. -/
theorem deactivate_selected_ordering (cf : Conf) (t : Nat)
    (ha : (cf.tagOf t).activated = true) (hs : (cf.tagOf t).selected = true)
    (hc : cf.tags.count t ≤ 1) :
    ((lunaL_tag_set_activated cf t false).1.tagOf t).selected = false
    ∧ ((lunaL_tag_set_activated cf t false).1.tagOf t).activated = false
    ∧ t ∉ (lunaL_tag_set_activated cf t false).1.tags
    ∧ ∃ i j k : Nat, i < j ∧ i < k
        ∧ ((lunaL_tag_set_activated cf t false).2.map Prod.fst)[i]?
            = some (Effect.emit (Obj.tag t) Sig.propSelected [])
        ∧ ((lunaL_tag_set_activated cf t false).2.map Prod.fst)[j]?
            = some (Effect.unref t)
        ∧ ((lunaL_tag_set_activated cf t false).2.map Prod.fst)[k]?
            = some (Effect.emit (Obj.tag t) Sig.propActivated []) := by
  have hmem : t ∉ cf.tags.erase t := by
    rw [← List.count_eq_zero, List.count_erase_self]
    omega
  refine ⟨?_, ?_, ?_, 0, 2, 5, by omega, by omega, ?_, ?_, ?_⟩ <;>
    simp [lunaL_tag_set_activated, ha, hs, Conf.setTag, hmem]

theorem deactivate_selected_ordering_witness :
    ((lunaL_tag_set_activated confDeact 0 false).1.tagOf 0).selected = false
    ∧ ((lunaL_tag_set_activated confDeact 0 false).1.tagOf 0).activated = false
    ∧ 0 ∉ (lunaL_tag_set_activated confDeact 0 false).1.tags
    ∧ ∃ i j k : Nat, i < j ∧ i < k
        ∧ ((lunaL_tag_set_activated confDeact 0 false).2.map Prod.fst)[i]?
            = some (Effect.emit (Obj.tag 0) Sig.propSelected [])
        ∧ ((lunaL_tag_set_activated confDeact 0 false).2.map Prod.fst)[j]?
            = some (Effect.unref 0)
        ∧ ((lunaL_tag_set_activated confDeact 0 false).2.map Prod.fst)[k]?
            = some (Effect.emit (Obj.tag 0) Sig.propActivated []) :=
  deactivate_selected_ordering confDeact 0 rfl rfl (by decide)

/-- C5: an edge-adding `tag_client` (and, dually, an edge-removing
`untag_client`) performs exactly one workarea recompute, scoped to the
client's screen, exactly one per-client desktop-protocol sync, and exactly
two signal emissions — first on the client with the tag as argument, then on
the tag with the client as argument — and every emission is performed in a
configuration whose membership list is already updated. -/
theorem edge_mutation_effects :
    (∀ (cf : Conf) (t c : Nat), c ∉ (cf.tagOf t).clients →
      ((tag_client cf t c).2.map Prod.fst).filter Effect.isWorkarea
          = [Effect.screen_update_workarea (cf.screenOf c)]
        ∧ ((tag_client cf t c).2.map Prod.fst).filter Effect.isDesktopSync
          = [Effect.ewmh_client_update_desktop c]
        ∧ ((tag_client cf t c).2.map Prod.fst).filter Effect.isEmit
          = [Effect.emit (Obj.client c) Sig.tagged [Obj.tag t],
             Effect.emit (Obj.tag t) Sig.tagged [Obj.client c]]
        ∧ ∀ p ∈ (tag_client cf t c).2, p.1.isEmit = true →
            c ∈ ((p.2.tagOf t).clients))
    ∧ (∀ (cf : Conf) (c t : Nat), c ∈ (cf.tagOf t).clients →
        ((cf.tagOf t).clients).Nodup →
      ((untag_client cf c t).2.map Prod.fst).filter Effect.isWorkarea
          = [Effect.screen_update_workarea (cf.screenOf c)]
        ∧ ((untag_client cf c t).2.map Prod.fst).filter Effect.isDesktopSync
          = [Effect.ewmh_client_update_desktop c]
        ∧ ((untag_client cf c t).2.map Prod.fst).filter Effect.isEmit
          = [Effect.emit (Obj.client c) Sig.untagged [Obj.tag t],
             Effect.emit (Obj.tag t) Sig.untagged [Obj.client c]]
        ∧ ∀ p ∈ (untag_client cf c t).2, p.1.isEmit = true →
            c ∉ ((p.2.tagOf t).clients)) := by
  constructor
  · intro cf t c hm
    have hb : ¬ is_client_tagged c (cf.tagOf t) = true := by
      simp [is_client_tagged, hm]
    refine ⟨?_, ?_, ?_, ?_⟩
    · simp [tag_client, hb, tag_client_emit_signal, Effect.isWorkarea]
    · simp [tag_client, hb, tag_client_emit_signal, Effect.isDesktopSync]
    · simp [tag_client, hb, tag_client_emit_signal, Effect.isEmit]
    · intro p hp hemit
      simp [tag_client, hb, tag_client_emit_signal] at hp
      rcases hp with rfl | rfl | rfl | rfl | rfl | rfl <;>
        simp_all [Effect.isEmit, Conf.setTag]
  · intro cf c t hm hn
    refine ⟨?_, ?_, ?_, ?_⟩
    · simp [untag_client, hm, tag_client_emit_signal, Effect.isWorkarea]
    · simp [untag_client, hm, tag_client_emit_signal, Effect.isDesktopSync]
    · simp [untag_client, hm, tag_client_emit_signal, Effect.isEmit]
    · intro p hp hemit
      simp [untag_client, hm, tag_client_emit_signal] at hp
      rcases hp with rfl | rfl | rfl | rfl | rfl | rfl <;>
        simp_all [Effect.isEmit, Conf.setTag, List.Nodup.mem_erase_iff hn]

theorem edge_mutation_effects_witness :
    ((tag_client conf0 0 1).2.map Prod.fst).filter Effect.isEmit
        = [Effect.emit (Obj.client 1) Sig.tagged [Obj.tag 0],
           Effect.emit (Obj.tag 0) Sig.tagged [Obj.client 1]]
    ∧ ((untag_client confTagged 1 0).2.map Prod.fst).filter Effect.isEmit
        = [Effect.emit (Obj.client 1) Sig.untagged [Obj.tag 0],
           Effect.emit (Obj.tag 0) Sig.untagged [Obj.client 1]] :=
  ⟨(edge_mutation_effects.1 conf0 0 1 (by simp [conf0])).2.2.1,
   (edge_mutation_effects.2 confTagged 1 0 (by simp [confTagged]) (by simp [confTagged])).2.2.1⟩

/-- C7: a second, immediately repeated `activated` write (covering both
activate and deactivate), `tag_client`, or `untag_client`, is a silent
no-op: the state is unchanged and no signal is emitted (the repeated
`tag_client` only acquires and releases a reference). -/
theorem tag_ops_idempotent :
    (∀ (cf : Conf) (t : Nat) (v : Bool),
        lunaL_tag_set_activated (lunaL_tag_set_activated cf t v).1 t v
          = ((lunaL_tag_set_activated cf t v).1, []))
    ∧ (∀ (cf : Conf) (t c : Nat),
        (tag_client (tag_client cf t c).1 t c).1 = (tag_client cf t c).1
        ∧ ((tag_client (tag_client cf t c).1 t c).2.map Prod.fst).filter Effect.isEmit
            = [])
    ∧ (∀ (cf : Conf) (c t : Nat), ((cf.tagOf t).clients).Nodup →
        untag_client (untag_client cf c t).1 c t = ((untag_client cf c t).1, [])) := by
  refine ⟨?_, ?_, ?_⟩
  · intro cf t v
    have h := lunaL_tag_set_activated_self cf t v
    set cf1 := (lunaL_tag_set_activated cf t v).1 with hcf1
    simp [lunaL_tag_set_activated, h]
  · intro cf t c
    have hm := tag_client_mem_self cf t c
    set cf1 := (tag_client cf t c).1 with hcf1
    constructor
    · simp [tag_client, is_client_tagged, hm]
    · simp [tag_client, is_client_tagged, hm, Effect.isEmit]
  · intro cf c t hn
    have hnot : c ∉ ((untag_client cf c t).1.tagOf t).clients := by
      rw [untag_client_clients_self]
      split
      · simp [List.Nodup.mem_erase_iff hn]
      · next hm => exact hm
    set cf1 := (untag_client cf c t).1 with hcf1
    simp [untag_client, hnot]

theorem tag_ops_idempotent_witness :
    lunaL_tag_set_activated (lunaL_tag_set_activated conf0 0 true).1 0 true
        = ((lunaL_tag_set_activated conf0 0 true).1, [])
    ∧ lunaL_tag_set_activated (lunaL_tag_set_activated confDeact 0 false).1 0 false
        = ((lunaL_tag_set_activated confDeact 0 false).1, [])
    ∧ (tag_client (tag_client conf0 0 1).1 0 1).1 = (tag_client conf0 0 1).1
    ∧ untag_client (untag_client confTagged 1 0).1 1 0
        = ((untag_client confTagged 1 0).1, []) :=
  ⟨tag_ops_idempotent.1 conf0 0 true,
   tag_ops_idempotent.1 confDeact 0 false,
   (tag_ops_idempotent.2.1 conf0 0 1).1,
   tag_ops_idempotent.2.2 confTagged 1 0 (by simp [confTagged])⟩

theorem is_client_tagged_iff (c : Nat) (tag : Tag) :
    is_client_tagged c tag = true ↔ c ∈ tag.clients := by
  simp [is_client_tagged]

/-- C8: with a focused client and a registry tag that is selected and holds
it, the index of the first such tag is returned; otherwise the index of the
first selected registry tag; otherwise 0 (also on an empty registry). -/
theorem current_or_first_selected_spec (cf : Conf) :
    (∀ c, cf.focusClient = some c →
      (∃ u ∈ cf.tags, (cf.tagOf u).selected = true ∧ c ∈ (cf.tagOf u).clients) →
      ∃ u, cf.tags[tags_get_current_or_first_selected_index cf]? = some u
        ∧ (cf.tagOf u).selected = true ∧ c ∈ (cf.tagOf u).clients
        ∧ ∀ j, j < tags_get_current_or_first_selected_index cf →
            ∀ w, cf.tags[j]? = some w →
              ¬ ((cf.tagOf w).selected = true ∧ c ∈ (cf.tagOf w).clients))
    ∧ ((∀ c, cf.focusClient = some c →
          ∀ u ∈ cf.tags, ¬ ((cf.tagOf u).selected = true ∧ c ∈ (cf.tagOf u).clients)) →
        (∃ u ∈ cf.tags, (cf.tagOf u).selected = true) →
        ∃ u, cf.tags[tags_get_current_or_first_selected_index cf]? = some u
          ∧ (cf.tagOf u).selected = true
          ∧ ∀ j, j < tags_get_current_or_first_selected_index cf →
              ∀ w, cf.tags[j]? = some w → (cf.tagOf w).selected = false)
    ∧ ((∀ c, cf.focusClient = some c →
          ∀ u ∈ cf.tags, ¬ ((cf.tagOf u).selected = true ∧ c ∈ (cf.tagOf u).clients)) →
        (∀ u ∈ cf.tags, (cf.tagOf u).selected = false) →
        tags_get_current_or_first_selected_index cf = 0) := by
  refine ⟨?_, ?_, ?_⟩
  · intro c hf hex
    obtain ⟨u0, hu0, hsel0, hmem0⟩ := hex
    have hp0 : ((cf.tagOf u0).selected && is_client_tagged c (cf.tagOf u0)) = true := by
      simp [hsel0, is_client_tagged, hmem0]
    cases hfi : cf.tags.findIdx?
        (fun t => (cf.tagOf t).selected && is_client_tagged c (cf.tagOf t)) with
    | none =>
        rw [List.findIdx?_eq_none_iff] at hfi
        exact absurd (hfi u0 hu0) (by simp [hp0])
    | some i =>
        have hval : tags_get_current_or_first_selected_index cf = i := by
          simp only [tags_get_current_or_first_selected_index, hf, hfi]
        rw [List.findIdx?_eq_some_iff_getElem] at hfi
        obtain ⟨hlt, hpi, hprev⟩ := hfi
        simp only [Bool.and_eq_true, is_client_tagged_iff] at hpi
        rw [hval]
        refine ⟨cf.tags[i], List.getElem?_eq_getElem hlt, hpi.1, hpi.2, ?_⟩
        intro j hj w hw
        have hjlt : j < cf.tags.length := Nat.lt_trans hj hlt
        rw [List.getElem?_eq_getElem hjlt] at hw
        obtain rfl := Option.some.inj hw
        have hnp := hprev j hj
        simp only [Bool.and_eq_true, is_client_tagged_iff] at hnp
        exact fun hcontra => hnp ⟨hcontra.1, hcontra.2⟩
  · intro hnc hex
    obtain ⟨u0, hu0, hsel0⟩ := hex
    cases hfi : cf.tags.findIdx? (fun t => (cf.tagOf t).selected) with
    | none =>
        rw [List.findIdx?_eq_none_iff] at hfi
        exact absurd (hfi u0 hu0) (by simp [hsel0])
    | some i =>
        have hval : tags_get_current_or_first_selected_index cf = i := by
          cases hfc : cf.focusClient with
          | none => simp only [tags_get_current_or_first_selected_index, hfc, hfi]
          | some c =>
              have hpnone : cf.tags.findIdx?
                  (fun t => (cf.tagOf t).selected && is_client_tagged c (cf.tagOf t))
                  = none := by
                rw [List.findIdx?_eq_none_iff]
                intro x hx
                have hx2 := hnc c hfc x hx
                by_cases hsx : (cf.tagOf x).selected = true
                · have hmx : c ∉ (cf.tagOf x).clients := fun hm => hx2 ⟨hsx, hm⟩
                  simp [hsx, is_client_tagged, hmx]
                · simp [Bool.eq_false_iff.mpr hsx]
              simp only [tags_get_current_or_first_selected_index, hfc, hpnone, hfi]
        rw [List.findIdx?_eq_some_iff_getElem] at hfi
        obtain ⟨hlt, hpi, hprev⟩ := hfi
        rw [hval]
        refine ⟨cf.tags[i], List.getElem?_eq_getElem hlt, hpi, ?_⟩
        intro j hj w hw
        have hjlt : j < cf.tags.length := Nat.lt_trans hj hlt
        rw [List.getElem?_eq_getElem hjlt] at hw
        obtain rfl := Option.some.inj hw
        have hnp := hprev j hj
        simpa using hnp
  · intro hnc hallsel
    have hsec : cf.tags.findIdx? (fun t => (cf.tagOf t).selected) = none := by
      rw [List.findIdx?_eq_none_iff]
      intro x hx
      exact hallsel x hx
    cases hfc : cf.focusClient with
    | none => simp only [tags_get_current_or_first_selected_index, hfc, hsec]
    | some c =>
        have hpnone : cf.tags.findIdx?
            (fun t => (cf.tagOf t).selected && is_client_tagged c (cf.tagOf t))
            = none := by
          rw [List.findIdx?_eq_none_iff]
          intro x hx
          simp [hallsel x hx]
        simp only [tags_get_current_or_first_selected_index, hfc, hpnone, hsec]

theorem current_or_first_selected_spec_witness :
    ∃ u, confFocus.tags[tags_get_current_or_first_selected_index confFocus]? = some u
      ∧ (confFocus.tagOf u).selected = true ∧ 5 ∈ (confFocus.tagOf u).clients
      ∧ ∀ j, j < tags_get_current_or_first_selected_index confFocus →
          ∀ w, confFocus.tags[j]? = some w →
            ¬ ((confFocus.tagOf w).selected = true ∧ 5 ∈ (confFocus.tagOf w).clients) :=
  (current_or_first_selected_spec confFocus).1 5 rfl
    ⟨4, by simp [confFocus], by simp [confFocus], by simp [confFocus]⟩

theorem luaA_tag_clients_tag_pass_aborts :
    ∀ (R : List LuaValue) (cf : Conf) (t : Nat), LuaValue.other ∈ R →
      (luaA_tag_clients_tag_pass cf t R).2.2 = true := by
  intro R
  induction R with
  | nil => intro cf t h; simp at h
  | cons v rest ih =>
      intro cf t hv
      cases v with
      | client c =>
          have hrest : LuaValue.other ∈ rest := by
            rcases List.mem_cons.mp hv with h | h
            · cases h
            · exact h
          simp only [luaA_tag_clients_tag_pass]
          exact ih _ t hrest
      | other => simp [luaA_tag_clients_tag_pass]

/-- C9: a non-client element in the replacement set makes the whole
`clients` call abort with a type error, and the edge mutations already
performed are kept: on a tag with no members, the replacement set
`[client 1, other]` aborts but leaves client 1 tagged. -/
theorem set_clients_type_error_no_rollback :
    (∀ (cf : Conf) (t : Nat) (R : List LuaValue), LuaValue.other ∈ R →
        (luaA_tag_clients cf t (some R)).2.2 = none)
    ∧ (luaA_tag_clients conf0 0 (some [LuaValue.client 1, LuaValue.other])).2.2 = none
    ∧ ((luaA_tag_clients conf0 0
          (some [LuaValue.client 1, LuaValue.other])).1.tagOf 0).clients = [1] := by
  have habort : ∀ (cf : Conf) (t : Nat) (R : List LuaValue), LuaValue.other ∈ R →
      (luaA_tag_clients cf t (some R)).2.2 = none := by
    intro cf t R hR
    simp only [luaA_tag_clients]
    split
    · rfl
    · simp [luaA_tag_clients_tag_pass_aborts R _ t hR]
  have h1 : luaA_tag_clients_untag_pass conf0 0 [LuaValue.client 1, LuaValue.other] 0
      = (conf0, [], false) := by
    rw [luaA_tag_clients_untag_pass]
    simp [conf0]
  refine ⟨habort, habort conf0 0 _ (by decide), ?_⟩
  simp only [luaA_tag_clients, h1]
  simp [luaA_tag_clients_tag_pass, tag_client, is_client_tagged, conf0, Conf.setTag]

theorem set_clients_type_error_no_rollback_witness :
    (luaA_tag_clients conf0 0 (some [LuaValue.other])).2.2 = none :=
  set_clients_type_error_no_rollback.1 conf0 0 [LuaValue.other] (by decide)
